import Mathlib

/-!
Verification development for the RRT* mission planner (`src/rrt_star.py`).

The planner works on 2D points with float coordinates; we embed points as
pairs of rationals (exact arithmetic; the float computations at stake here
are small integer-and-half quantities that floats represent exactly).
Euclidean distances involve square roots and are embedded in `ℝ`.
External geometry predicates (the shapely `contains` / `intersects` calls
on obstacle polygons) are not part of this repository and are abstracted
as Boolean-valued fields of an `Obstacle` record.  Python exceptions
(out-of-range numpy indexing) are modelled with `Option`: `none` means the
call does not return normally.
-/

/-- A planar point, `(x, y)`. -/
abbrev Pt := ℚ × ℚ

/-- Squared Euclidean distance.  The source compares `np.linalg.norm`
values; all such comparisons are embedded as the equivalent comparisons of
squared distances. -/
def sqDist (a b : Pt) : ℚ :=
  (a.1 - b.1) ^ 2 + (a.2 - b.2) ^ 2

/-- Euclidean distance (`np.linalg.norm (a - b)`). -/
noncomputable def distR (a b : Pt) : ℝ :=
  Real.sqrt ((((a.1 - b.1) : ℚ) : ℝ) ^ 2 + (((a.2 - b.2) : ℚ) : ℝ) ^ 2)

/-- Python `int(q)`: truncation toward zero. -/
def ratTrunc (q : ℚ) : ℤ :=
  if q < 0 then ⌈q⌉ else ⌊q⌋

/-- Comparison `norm < bound` expressed on the squared distance:
`Real.sqrt sq < bound` iff `0 < bound ∧ sq < bound ^ 2` (for `0 ≤ sq`). -/
def ltNorm (sq bound : ℚ) : Bool :=
  decide (0 < bound) && decide (sq < bound ^ 2)

/-- The cost grid (`self.grid`), a rectangular 2D numpy array of floats,
row-major. -/
abbrev Grid := List (List ℚ)

/-- `grid.shape[0]`. -/
def gridRows (g : Grid) : ℕ := g.length

/-- `grid.shape[1]`. -/
def gridCols (g : Grid) : ℕ := (g.headD []).length

/-- Cell value at nonnegative indices `(row, col)` (in-bounds use sites). -/
def gridAt (g : Grid) (i j : ℕ) : ℚ :=
  (g.getD i []).getD j 0

/-- Python/numpy indexing `grid[i, j]` with possibly negative indices:
valid when `-rows ≤ i < rows` and `-cols ≤ j < cols`, negative indices
wrapping around; anything else raises `IndexError` (modelled as `none`). -/
def pyGet (g : Grid) (i j : ℤ) : Option ℚ :=
  if -(gridRows g : ℤ) ≤ i ∧ i < (gridRows g : ℤ) ∧
     -(gridCols g : ℤ) ≤ j ∧ j < (gridCols g : ℤ) then
    some (gridAt g (i.emod (gridRows g)).toNat (j.emod (gridCols g)).toNat)
  else none

/-- Map a world point to its grid cell, `(int(x / scale), int(y / scale))`
(as in `_is_collision` and `_path_cost`). -/
def toCell (scale : ℚ) (p : Pt) : ℤ × ℤ :=
  (ratTrunc (p.1 / scale), ratTrunc (p.2 / scale))

/-- The `dx > dy` loop of `_bresenham`: steps `x` by `sx` each iteration
(the source loops `while x != x1`; since `sx` points from `x0` toward
`x1`, the loop runs exactly `|x1 - x0|` times, which is the fuel). -/
def bresLoopX : ℕ → ℤ → ℤ → ℤ → ℤ → ℚ → ℚ → ℚ → List (ℤ × ℤ)
  | 0, _, _, _, _, _, _, _ => []
  | n + 1, x, y, sx, sy, err, dx, dy =>
    (x, y) ::
      (let e := err - dy
       if e < 0 then bresLoopX n (x + sx) (y + sy) sx sy (e + dx) dx dy
       else bresLoopX n (x + sx) y sx sy e dx dy)

/-- The `dy ≥ dx` loop of `_bresenham`: steps `y` by `sy` each iteration. -/
def bresLoopY : ℕ → ℤ → ℤ → ℤ → ℤ → ℚ → ℚ → ℚ → List (ℤ × ℤ)
  | 0, _, _, _, _, _, _, _ => []
  | n + 1, x, y, sx, sy, err, dx, dy =>
    (x, y) ::
      (let e := err - dx
       if e < 0 then bresLoopY n (x + sx) (y + sy) sx sy (e + dy) dx dy
       else bresLoopY n x (y + sy) sx sy e dx dy)

/-- `RRTStar._bresenham`: integer Bresenham rasterization from the start
cell toward the goal cell.  The error accumulator starts at `major / 2.0`;
these float values are integer multiples of one half and hence exact, so
they are embedded as rationals. -/
def bresenham (c c' : ℤ × ℤ) : List (ℤ × ℤ) :=
  let dxN := (c'.1 - c.1).natAbs
  let dyN := (c'.2 - c.2).natAbs
  let sx : ℤ := if c'.1 < c.1 then -1 else 1
  let sy : ℤ := if c'.2 < c.2 then -1 else 1
  if dyN < dxN then
    bresLoopX dxN c.1 c.2 sx sy ((dxN : ℚ) / 2) (dxN : ℚ) (dyN : ℚ)
  else
    bresLoopY dyN c.1 c.2 sx sy ((dyN : ℚ) / 2) (dxN : ℚ) (dyN : ℚ)

/-- The bounds test of the rasterized-cell loop in `_is_collision`:
`0 < point[0] < grid.shape[1] and 0 < point[1] < grid.shape[0]`. -/
def cellInside (g : Grid) (c : ℤ × ℤ) : Bool :=
  decide (0 < c.1) && decide (c.1 < (gridCols g : ℤ)) &&
    decide (0 < c.2) && decide (c.2 < (gridRows g : ℤ))

/-- The rasterized-cell loop of `_is_collision`: for each Bresenham cell in
order, a cell strictly inside the grid bounds exits the loop (`break`);
otherwise the cost at `grid[point[0] - 1, point[1] - 1]` is compared with
the threshold and `True` is returned when it is at least the threshold. -/
def gridScan (g : Grid) (thr : ℚ) : List (ℤ × ℤ) → Option Bool
  | [] => some false
  | c :: rest =>
    if cellInside g c then some false
    else
      match pyGet g (c.1 - 1) (c.2 - 1) with
      | none => none
      | some v => if thr ≤ v then some true else gridScan g thr rest

/-- An obstacle.  The geometric predicates come from the shapely library
(outside this repository) and are abstracted as Boolean-valued functions:
`containsPt p` / `intersectsPt p` answer `obstacle.contains(Point(p))` /
`obstacle.intersects(Point(p))`, and the `Seg` fields answer the same
queries for `LineString([p1, p2])`. -/
structure Obstacle where
  containsPt : Pt → Bool
  intersectsPt : Pt → Bool
  containsSeg : Pt → Pt → Bool
  intersectsSeg : Pt → Pt → Bool

/-- The obstacle loop of `_is_collision` for a point query. -/
def obstaclePtHit (obs : List Obstacle) (p : Pt) : Bool :=
  obs.any fun o => o.containsPt p || o.intersectsPt p

/-- The obstacle loop of `_is_collision` for a segment query. -/
def obstacleSegHit (obs : List Obstacle) (p1 p2 : Pt) : Bool :=
  obs.any fun o => o.containsSeg p1 p2 || o.intersectsSeg p1 p2

/-- `RRTStar._is_collision(point1)` (single-point form): only the obstacle
loop runs. -/
def isCollisionPoint (obs : List Obstacle) (p : Pt) : Bool :=
  obstaclePtHit obs p

/-- `RRTStar._is_collision(point1, point2)` (segment form): the obstacle
loop, then the Bresenham scan of the grid.  `none` models a propagating
`IndexError` from the numpy access in the scan. -/
def isCollisionSeg (obs : List Obstacle) (g : Grid) (thr scale : ℚ)
    (p1 p2 : Pt) : Option Bool :=
  if obstacleSegHit obs p1 p2 then some true
  else gridScan g thr (bresenham (toCell scale p1) (toCell scale p2))

/-- `RRTStar._get_grid_cost`: world point to clamped indices
(`i = max(0, min(int(y / scale), rows - 1))`, `j` analogous), then the
cell value. -/
def getGridCost (g : Grid) (scale : ℚ) (p : Pt) : ℚ :=
  let i : ℤ := max 0 (min (ratTrunc (p.2 / scale)) ((gridRows g : ℤ) - 1))
  let j : ℤ := max 0 (min (ratTrunc (p.1 / scale)) ((gridCols g : ℤ) - 1))
  gridAt g i.toNat j.toNat

/-- Modelled from the spec for comparison with `getGridCost`
(claim C8): `row = clamp(floor(y / cell_size), 0, rows - 1)`, `col`
analogous, then that cell's value. -/
def costAtSpec (g : Grid) (scale : ℚ) (p : Pt) : ℚ :=
  let i : ℤ := max 0 (min ⌊p.2 / scale⌋ ((gridRows g : ℤ) - 1))
  let j : ℤ := max 0 (min ⌊p.1 / scale⌋ ((gridCols g : ℤ) - 1))
  gridAt g i.toNat j.toNat

/-- The in-bounds test of the `_path_cost` loop:
`0 <= y < grid.shape[0] and 0 <= x < grid.shape[1]`. -/
def inBoundsCell (g : Grid) (c : ℤ × ℤ) : Bool :=
  decide (0 ≤ c.2) && decide (c.2 < (gridRows g : ℤ)) &&
    decide (0 ≤ c.1) && decide (c.1 < (gridCols g : ℤ))

/-- The grid value read in the `_path_cost` loop, `grid[int(y), int(x)]`. -/
def cellVal (g : Grid) (c : ℤ × ℤ) : ℚ :=
  gridAt g c.2.toNat c.1.toNat

/-- The accumulation step of the `_path_cost` loop: running
`(total_cost, valid_cells)` pair. -/
def pathCostStep (g : Grid) (acc : ℚ × ℕ) (c : ℤ × ℤ) : ℚ × ℕ :=
  if inBoundsCell g c then (acc.1 + cellVal g c, acc.2 + 1) else acc

/-- `RRTStar._path_cost`: Euclidean distance scaled by one plus the
average grid cost over the in-bounds Bresenham cells of the segment
(`0` when no cell is in bounds). -/
noncomputable def pathCost (g : Grid) (scale : ℚ) (a b : Pt) : ℝ :=
  let cells := bresenham (toCell scale a) (toCell scale b)
  let acc := cells.foldl (pathCostStep g) (0, 0)
  let avg : ℚ := if 0 < acc.2 then acc.1 / (acc.2 : ℚ) else 0
  distR a b * (1 + (avg : ℝ))

/-- Modelled from the spec for comparison with `pathCost` (claim C7): the
average grid cost over the Bresenham-rasterized cells of the segment that
fall within grid bounds, `0` if no valid cells are traversed. -/
def avgCostSpec (g : Grid) (scale : ℚ) (a b : Pt) : ℚ :=
  let valid := (bresenham (toCell scale a) (toCell scale b)).filter (inBoundsCell g)
  if valid.length = 0 then 0 else (valid.map (cellVal g)).sum / (valid.length : ℚ)

/-- The validity gate of the `find_path` sampling loop:
`not _is_collision(new_point) or _get_grid_cost(new_point) < threshold`. -/
def validGate (obs : List Obstacle) (g : Grid) (scale thr : ℚ) (p : Pt) : Bool :=
  !(isCollisionPoint obs p) || decide (getGridCost g scale p < thr)

theorem ratTrunc_clamp (q : ℚ) (m : ℤ) :
    max 0 (min (ratTrunc q) m) = max 0 (min ⌊q⌋ m) := by
  unfold ratTrunc
  split
  · rename_i hq
    have h1 : ⌈q⌉ ≤ 0 := Int.ceil_le.mpr (by exact_mod_cast hq.le)
    have h2 : ⌊q⌋ ≤ 0 := le_trans (Int.floor_le_ceil q) h1
    have e1 : min ⌈q⌉ m ≤ 0 := le_trans (min_le_left _ _) h1
    have e2 : min ⌊q⌋ m ≤ 0 := le_trans (min_le_left _ _) h2
    omega
  · rfl

theorem foldl_pathCostStep (g : Grid) :
    ∀ (cells : List (ℤ × ℤ)) (t : ℚ) (k : ℕ),
      cells.foldl (pathCostStep g) (t, k) =
        (t + ((cells.filter (inBoundsCell g)).map (cellVal g)).sum,
         k + (cells.filter (inBoundsCell g)).length) := by
  intro cells
  induction cells with
  | nil => simp
  | cons c rest ih =>
    intro t k
    by_cases hc : inBoundsCell g c
    · simp only [List.foldl_cons, pathCostStep, hc, if_true, ih, List.filter_cons,
        List.map_cons, List.sum_cons, List.length_cons, Prod.mk.injEq]
      exact ⟨by ring, by omega⟩
    · simp [pathCostStep, hc, ih, List.filter_cons]

/-- C8: the grid cost query reads the cell at the clamped floor indices;
out-of-range world points clamp to the nearest valid cell and the query is
total. -/
theorem grid_cost_clamped_floor (g : Grid) (scale : ℚ) (p : Pt) :
    getGridCost g scale p = costAtSpec g scale p := by
  unfold getGridCost costAtSpec
  rw [ratTrunc_clamp, ratTrunc_clamp]

/-- C7: `edge_cost(a, b)` is the Euclidean distance between `a` and `b`
scaled by one plus the average grid cost over the in-bounds
Bresenham-rasterized cells of the segment (`0` when no rasterized cell is
in bounds). -/
theorem edge_cost_avg (g : Grid) (scale : ℚ) (a b : Pt) :
    pathCost g scale a b = distR a b * (1 + (avgCostSpec g scale a b : ℝ)) := by
  unfold pathCost avgCostSpec
  simp only [foldl_pathCostStep, Nat.zero_add, zero_add]
  rcases Nat.eq_zero_or_pos (((bresenham (toCell scale a) (toCell scale b)).filter
      (inBoundsCell g)).length) with h0 | hpos
  · simp [h0]
  · simp [hpos, Nat.pos_iff_ne_zero.mp hpos]

theorem distR_nonneg (a b : Pt) : 0 ≤ distR a b :=
  Real.sqrt_nonneg _

/-- All grid entries are nonnegative (the grid semantics in the spec put
each cell cost in `[0, 1]`; only nonnegativity is needed below). -/
def gridNonneg (g : Grid) : Prop :=
  ∀ i j : ℕ, 0 ≤ gridAt g i j

theorem avgCostSpec_nonneg (g : Grid) (hg : gridNonneg g) (scale : ℚ) (a b : Pt) :
    0 ≤ avgCostSpec g scale a b := by
  unfold avgCostSpec
  simp only
  split
  · exact le_refl 0
  · refine div_nonneg (List.sum_nonneg ?_) (by positivity)
    intro q hq
    rcases List.mem_map.mp hq with ⟨c, _, rfl⟩
    exact hg _ _

/-- Nonnegativity of the edge cost (used for the acyclicity invariant):
with nonnegative grid entries, `_path_cost` is nonnegative. -/
theorem pathCost_nonneg (g : Grid) (hg : gridNonneg g) (scale : ℚ) (a b : Pt) :
    0 ≤ pathCost g scale a b := by
  rw [edge_cost_avg]
  refine mul_nonneg (distR_nonneg a b) ?_
  have h := avgCostSpec_nonneg g hg scale a b
  have : (0 : ℝ) ≤ (avgCostSpec g scale a b : ℚ) := by exact_mod_cast h
  linarith

theorem bresLoopX_fst : ∀ (n : ℕ) (x y sx sy : ℤ) (err dx dy : ℚ),
    ∀ p ∈ bresLoopX n x y sx sy err dx dy, ∃ i : ℕ, i < n ∧ p.1 = x + i * sx := by
  intro n
  induction n with
  | zero => intro x y sx sy err dx dy p hp; simp [bresLoopX] at hp
  | succ m ih =>
    intro x y sx sy err dx dy p hp
    simp only [bresLoopX, List.mem_cons] at hp
    rcases hp with rfl | hp
    · exact ⟨0, Nat.succ_pos m, by simp⟩
    · split at hp
      · rcases ih _ _ _ _ _ _ _ p hp with ⟨i, hi, he⟩
        exact ⟨i + 1, by omega, by push_cast [he]; ring⟩
      · rcases ih _ _ _ _ _ _ _ p hp with ⟨i, hi, he⟩
        exact ⟨i + 1, by omega, by push_cast [he]; ring⟩

theorem bresLoopY_snd : ∀ (n : ℕ) (x y sx sy : ℤ) (err dx dy : ℚ),
    ∀ p ∈ bresLoopY n x y sx sy err dx dy, ∃ i : ℕ, i < n ∧ p.2 = y + i * sy := by
  intro n
  induction n with
  | zero => intro x y sx sy err dx dy p hp; simp [bresLoopY] at hp
  | succ m ih =>
    intro x y sx sy err dx dy p hp
    simp only [bresLoopY, List.mem_cons] at hp
    rcases hp with rfl | hp
    · exact ⟨0, Nat.succ_pos m, by simp⟩
    · split at hp
      · rcases ih _ _ _ _ _ _ _ p hp with ⟨i, hi, he⟩
        exact ⟨i + 1, by omega, by push_cast [he]; ring⟩
      · rcases ih _ _ _ _ _ _ _ p hp with ⟨i, hi, he⟩
        exact ⟨i + 1, by omega, by push_cast [he]; ring⟩

theorem bresenham_self (c : ℤ × ℤ) : bresenham c c = [] := by
  simp [bresenham, bresLoopY]

theorem bresenham_start_mem (c c' : ℤ × ℤ) (h : c ≠ c') : c ∈ bresenham c c' := by
  unfold bresenham
  simp only
  split
  · rename_i hlt
    have hx : (c'.1 - c.1).natAbs ≠ 0 := by omega
    rcases Nat.exists_eq_succ_of_ne_zero hx with ⟨m, hm⟩
    rw [hm]
    exact List.mem_cons_self _ _
  · rename_i hge
    have hy : (c'.2 - c.2).natAbs ≠ 0 := by
      intro h0
      have : (c'.1 - c.1).natAbs = 0 := by omega
      apply h
      have e1 : c.1 = c'.1 := by omega
      have e2 : c.2 = c'.2 := by omega
      exact Prod.ext e1 e2
    rcases Nat.exists_eq_succ_of_ne_zero hy with ⟨m, hm⟩
    rw [hm]
    exact List.mem_cons_self _ _

theorem bresenham_goal_not_mem (c c' : ℤ × ℤ) : c' ∉ bresenham c c' := by
  unfold bresenham
  simp only
  intro hmem
  split at hmem
  · rcases bresLoopX_fst _ _ _ _ _ _ _ _ _ hmem with ⟨i, hi, he⟩
    rename_i hlt
    revert he
    split
    · rename_i hc; intro he; omega
    · rename_i hc; intro he; omega
  · rename_i hge
    rcases bresLoopY_snd _ _ _ _ _ _ _ _ _ hmem with ⟨i, hi, he⟩
    revert he
    split
    · rename_i hc; intro he; omega
    · rename_i hc; intro he; omega

/-- C9: for distinct cells the Bresenham rasterization contains the start
cell and excludes the goal cell; for equal cells it is empty, so a
zero-length segment traverses no grid cells and its edge cost equals its
Euclidean distance. -/
theorem bresenham_endpoint_policy (c c' : ℤ × ℤ) (g : Grid) (scale : ℚ) (a : Pt)
    (h : c ≠ c') :
    c ∈ bresenham c c' ∧ c' ∉ bresenham c c' ∧ bresenham c c = [] ∧
      pathCost g scale a a = distR a a := by
  refine ⟨bresenham_start_mem c c' h, bresenham_goal_not_mem c c', bresenham_self c, ?_⟩
  unfold pathCost
  simp [bresenham_self]

/-- Witness for `bresenham_endpoint_policy` at the concrete cells
`(0,0)` and `(2,1)`. -/
theorem bresenham_endpoint_policy_witness :
    ((0, 0) : ℤ × ℤ) ≠ (2, 1) ∧
      ((0, 0) : ℤ × ℤ) ∈ bresenham (0, 0) (2, 1) ∧
      ((2, 1) : ℤ × ℤ) ∉ bresenham (0, 0) (2, 1) ∧
      pathCost [] 1 (0, 0) (0, 0) = distR (0, 0) (0, 0) := by
  have h := bresenham_endpoint_policy (0, 0) (2, 1) [] 1 ((0 : ℚ), (0 : ℚ))
    (by decide)
  exact ⟨by decide, h.1, h.2.1, h.2.2.2⟩

theorem gridScan_true_iff (g : Grid) (thr : ℚ) :
    ∀ line : List (ℤ × ℤ),
      gridScan g thr line = some true ↔
        ∃ pre c post,
          line = pre ++ c :: post ∧
          (∀ d ∈ pre, cellInside g d = false ∧
            ∃ v, pyGet g (d.1 - 1) (d.2 - 1) = some v ∧ v < thr) ∧
          cellInside g c = false ∧
          ∃ v, pyGet g (c.1 - 1) (c.2 - 1) = some v ∧ thr ≤ v := by
  intro line
  induction line with
  | nil =>
    constructor
    · intro h
      simp [gridScan] at h
    · rintro ⟨pre, c, post, habs, -⟩
      exact absurd habs (by simp)
  | cons c0 rest ih =>
    by_cases hin : cellInside g c0 = true
    · constructor
      · intro h
        simp [gridScan, hin] at h
      · rintro ⟨pre, c, post, heq, hpre, hc, -⟩
        cases pre with
        | nil =>
          simp only [List.nil_append, List.cons.injEq] at heq
          rw [heq.1] at hin
          rw [hin] at hc
          cases hc
        | cons q pre2 =>
          simp only [List.cons_append, List.cons.injEq] at heq
          have hq := (hpre q (by simp)).1
          rw [heq.1] at hin
          rw [hin] at hq
          cases hq
    · have hin2 : cellInside g c0 = false := by
        revert hin
        cases cellInside g c0 <;> simp
      cases hv0 : pyGet g (c0.1 - 1) (c0.2 - 1) with
      | none =>
        constructor
        · intro h
          simp [gridScan, hin2, hv0] at h
        · rintro ⟨pre, c, post, heq, hpre, hc, v, hv, -⟩
          cases pre with
          | nil =>
            simp only [List.nil_append, List.cons.injEq] at heq
            rw [heq.1] at hv0
            rw [hv0] at hv
            cases hv
          | cons q pre2 =>
            simp only [List.cons_append, List.cons.injEq] at heq
            have hq := (hpre q (by simp)).2
            rcases hq with ⟨w, hw, -⟩
            rw [heq.1] at hv0
            rw [hv0] at hw
            cases hw
      | some v =>
        by_cases hthr : thr ≤ v
        · constructor
          · intro _
            exact ⟨[], c0, rest, by simp, by simp, hin2, v, hv0, hthr⟩
          · intro _
            simp [gridScan, hin2, hv0, hthr]
        · constructor
          · intro h
            have h2 : gridScan g thr rest = some true := by
              simpa [gridScan, hin2, hv0, hthr] using h
            rcases ih.mp h2 with ⟨pre, c, post, heq, hpre, hc, hv⟩
            refine ⟨c0 :: pre, c, post, by simp [heq], ?_, hc, hv⟩
            intro d hd
            rcases List.mem_cons.mp hd with rfl | hd2
            · exact ⟨hin2, v, hv0, lt_of_not_le hthr⟩
            · exact hpre d hd2
          · rintro ⟨pre, c, post, heq, hpre, hc, w, hw, hwthr⟩
            cases pre with
            | nil =>
              simp only [List.nil_append, List.cons.injEq] at heq
              rw [heq.1] at hv0
              rw [hv0] at hw
              cases hw
              exact absurd hwthr hthr
            | cons q pre2 =>
              simp only [List.cons_append, List.cons.injEq] at heq
              have h2 : gridScan g thr rest = some true := by
                refine ih.mpr ⟨pre2, c, post, heq.2, ?_, hc, w, hw, hwthr⟩
                intro d hd
                exact hpre d (by simp [hd])
              simp [gridScan, hin2, hv0, hthr, h2]

/-- C1 (amended): a segment query returns `True` exactly when an obstacle
hits the segment, or when the Bresenham scan, walking the rasterized cells
in order, reaches a cell that is NOT strictly inside the grid bounds whose
(wrapped, shifted) lookup `grid[x - 1, y - 1]` is at or above the
threshold, every earlier cell also being outside the open interior with a
below-threshold lookup.  In particular a cell strictly inside the grid
bounds never causes the query to return `True` (it stops the scan), and
only cells on the open boundary or outside the grid can block. -/
theorem segment_block_policy (obs : List Obstacle) (g : Grid) (thr scale : ℚ)
    (p1 p2 : Pt) :
    isCollisionSeg obs g thr scale p1 p2 = some true ↔
      obstacleSegHit obs p1 p2 = true ∨
        ∃ pre c post,
          bresenham (toCell scale p1) (toCell scale p2) = pre ++ c :: post ∧
          (∀ d ∈ pre, cellInside g d = false ∧
            ∃ v, pyGet g (d.1 - 1) (d.2 - 1) = some v ∧ v < thr) ∧
          cellInside g c = false ∧
          ∃ v, pyGet g (c.1 - 1) (c.2 - 1) = some v ∧ thr ≤ v := by
  unfold isCollisionSeg
  by_cases h : obstacleSegHit obs p1 p2
  · simp [h]
  · simp only [h, if_false, Bool.false_eq_true, false_or]
    exact gridScan_true_iff g thr _

/-- The all-ones 3×3 grid used in the claim C1 counterexample. -/
def gOnes : Grid := [[1, 1, 1], [1, 1, 1], [1, 1, 1]]

/-- Counterexample to claim C1 as stated: with no obstacles, threshold `1`
and cell size `1`, the segment from `(1, 2)` to `(2, 2)` rasterizes to the
single cell `(1, 2)`, which is strictly inside the 3×3 all-ones grid
bounds and whose cost `1` is at the threshold, yet the query returns
`False` (the scan `break`s at the first strictly-inside cell instead of
blocking). -/
theorem segment_block_inside_counterexample :
    isCollisionSeg [] gOnes 1 1 (1, 2) (2, 2) = some false ∧
      (1, 2) ∈ bresenham (toCell 1 (1, 2)) (toCell 1 (2, 2)) ∧
      cellInside gOnes (1, 2) = true ∧
      (1 : ℚ) ≤ gridAt gOnes 1 2 := by
  have ht : toCell 1 ((1 : ℚ), (2 : ℚ)) = (1, 2) := by simp [toCell, ratTrunc]
  have ht2 : toCell 1 ((2 : ℚ), (2 : ℚ)) = (2, 2) := by simp [toCell, ratTrunc]
  have hb : bresenham (1, 2) (2, 2) = [(1, 2)] := by
    norm_num [bresenham, bresLoopX]
  refine ⟨?_, ?_, ?_, ?_⟩
  · simp [isCollisionSeg, obstacleSegHit, ht, ht2, hb, gridScan, cellInside,
      gridCols, gridRows, gOnes]
  · simp [ht, ht2, hb]
  · simp [cellInside, gridCols, gridRows, gOnes]
  · simp [gridAt, gOnes]

/-- C5: the sampling validity gate accepts a candidate exactly when it is
not point-blocked OR its grid cost is below the threshold; equivalently it
rejects exactly when the candidate is both point-blocked and at or above
the cost threshold. -/
theorem validity_gate_disjunction (obs : List Obstacle) (g : Grid)
    (scale thr : ℚ) (p : Pt) :
    (validGate obs g scale thr p = false ↔
      isCollisionPoint obs p = true ∧ thr ≤ getGridCost g scale p) ∧
    (validGate obs g scale thr p = true ↔
      isCollisionPoint obs p = false ∨ getGridCost g scale p < thr) := by
  unfold validGate
  constructor
  · cases hc : isCollisionPoint obs p <;> simp [not_lt]
  · cases hc : isCollisionPoint obs p <;> simp

/-- Outcome of one pass of the inner `for goal in path[idx:]` loop of
`_simplify_path`: the collision check raised (`exc`), the loop fell
through without `break` after advancing `idx` by `k` (`through k`), or it
`break`ed after appending point `p` to `new_path` with `idx` advanced by
`k` (`app p k`). -/
inductive ScanOut (α : Type) where
  | exc : ScanOut α
  | through : ℕ → ScanOut α
  | app : α → ℕ → ScanOut α

/-- The inner `for` loop of `_simplify_path`.  `anchor` is `new_path[-1]`
(fixed during the pass), `cur` is the running local `start`, and the list
argument is the remaining slice `path[idx:]`.  A free goal advances
`start` and `idx`; reaching the last point by value appends and breaks; a
blocked goal appends the current `start` and breaks. -/
def scanFw {α : Type} [DecidableEq α] (blocked : α → α → Option Bool)
    (lastPt anchor : α) : α → List α → ScanOut α
  | _, [] => .through 0
  | cur, g :: rest =>
    match blocked anchor g with
    | none => .exc
    | some true => .app cur 0
    | some false =>
      if g = lastPt then .app g 1
      else
        match scanFw blocked lastPt anchor g rest with
        | .exc => .exc
        | .through k => .through (k + 1)
        | .app p k => .app p (k + 1)

/-- The outer `while` loop of `_simplify_path`, fuel-indexed (`none`
models a run that does not return normally: the source loop can spin
forever, and the collision check can raise).  State: `new_path` so far,
its last element `cur`, and the index `idx`. -/
def simplifyAux {α : Type} [DecidableEq α] (blocked : α → α → Option Bool)
    (path : List α) (lastPt : α) : ℕ → List α → α → ℕ → Option (List α)
  | 0, _, _, _ => none
  | f + 1, newPath, cur, idx =>
    if cur = lastPt then some newPath
    else
      match scanFw blocked lastPt cur cur (path.drop idx) with
      | .exc => none
      | .through k => simplifyAux blocked path lastPt f newPath cur (idx + k)
      | .app p k => simplifyAux blocked path lastPt f (newPath ++ [p]) p (idx + k)

/-- `RRTStar._simplify_path` (fuel-indexed): `new_path = [path[0]]`,
`idx = 1`, loop until the last appended point equals `path[-1]` by value. -/
def simplifyPath {α : Type} [DecidableEq α] (blocked : α → α → Option Bool)
    (fuel : ℕ) (path : List α) : Option (List α) :=
  match path with
  | [] => none
  | p0 :: rest =>
    simplifyAux blocked (p0 :: rest) ((p0 :: rest).getLast (by simp)) fuel [p0] p0 1

/-- A collision checker that always returns normally, as assumed by the
simplification claims (the checker in the source can additionally raise;
that failure mode is the subject of the segment-query analysis above). -/
def totalCheck {α : Type} (B : α → α → Bool) : α → α → Option Bool :=
  fun a b => some (B a b)

theorem chain_drop {α : Type} {R : α → α → Prop} {l : List α}
    (h : List.Chain' R l) : ∀ n : ℕ, List.Chain' R (l.drop n) := by
  intro n
  induction n with
  | zero => simpa using h
  | succ m ih =>
    rw [← List.tail_drop]
    exact ih.tail

theorem scanFw_total_spec {α : Type} [DecidableEq α] (B : α → α → Bool)
    (lastPt anchor : α) :
    ∀ (l : List α) (cur : α), l ≠ [] → l.getLast? = some lastPt →
      ∃ p k, scanFw (totalCheck B) lastPt anchor cur l = .app p k ∧
        k ≤ l.length ∧
        ((k = 0 ∧ p = cur) ∨
          (1 ≤ k ∧ B anchor p = false ∧ l.drop (k - 1) = p :: l.drop k)) ∧
        (∀ h t, l = h :: t → B anchor h = false → 1 ≤ k) := by
  intro l
  induction l with
  | nil => intro cur h; exact absurd rfl h
  | cons g rest ih =>
    intro cur _ hlast
    cases hB : B anchor g with
    | true =>
      refine ⟨cur, 0, ?_, by simp, Or.inl ⟨rfl, rfl⟩, ?_⟩
      · simp [scanFw, totalCheck, hB]
      · intro h t he hf
        cases he
        simp [hB] at hf
    | false =>
      by_cases hg : g = lastPt
      · subst hg
        refine ⟨g, 1, ?_, by simp, Or.inr ⟨le_refl 1, hB, by simp⟩, fun _ _ _ _ => le_refl 1⟩
        simp [scanFw, totalCheck, hB]
      · have hrne : rest ≠ [] := by
          intro h0
          rw [h0] at hlast
          simp at hlast
          exact hg hlast
        have hrlast : rest.getLast? = some lastPt := by
          rcases List.exists_cons_of_ne_nil hrne with ⟨b, t, rfl⟩
          rw [← List.getLast?_cons_cons (a := g)]
          exact hlast
        rcases ih g hrne hrlast with ⟨p, k, hscan, hk, hdisj, -⟩
        refine ⟨p, k + 1, ?_, by simpa using Nat.succ_le_succ hk, ?_, fun _ _ _ _ => by omega⟩
        · simp [scanFw, totalCheck, hB, hg, hscan]
        · rcases hdisj with ⟨hk0, rfl⟩ | ⟨hk1, hfree, hdrop⟩
          · refine Or.inr ⟨by omega, hB, ?_⟩
            subst hk0
            simp
          · refine Or.inr ⟨by omega, hfree, ?_⟩
            have h1 : (g :: rest).drop (k + 1 - 1) = rest.drop (k - 1) := by
              have : k + 1 - 1 = (k - 1) + 1 := by omega
              rw [this, List.drop_succ_cons]
            rw [h1, hdrop, List.drop_succ_cons]

theorem simplifyAux_total_spec {α : Type} [DecidableEq α] (B : α → α → Bool)
    (path : List α) (lastPt : α)
    (hchain : List.Chain' (fun a b => B a b = false) path)
    (hplast : path.getLast? = some lastPt) :
    ∀ (fuel : ℕ) (newPath : List α) (cur : α) (idx : ℕ),
      1 ≤ idx → idx ≤ path.length →
      path.drop (idx - 1) = cur :: path.drop idx →
      newPath ≠ [] → newPath.getLast? = some cur →
      newPath.head? = path.head? →
      List.Chain' (fun a b => B a b = false) newPath →
      newPath.length ≤ idx →
      path.length + 1 - idx ≤ fuel →
      ∃ out, simplifyAux (totalCheck B) path lastPt fuel newPath cur idx = some out ∧
        out.head? = path.head? ∧ out.getLast? = some lastPt ∧
        List.Chain' (fun a b => B a b = false) out ∧ out.length ≤ path.length := by
  intro fuel
  induction fuel with
  | zero =>
    intro newPath cur idx h1 h2 _ _ _ _ _ _ hfuel
    omega
  | succ f ih =>
    intro newPath cur idx h1 h2 hdrop hne hlastc hheadc hchainNP hlenNP hfuel
    by_cases hcl : cur = lastPt
    · refine ⟨newPath, ?_, hheadc, ?_, hchainNP, le_trans hlenNP h2⟩
      · simp [simplifyAux, hcl]
      · rw [hlastc, hcl]
    · have hidxlt : idx < path.length := by
        rcases lt_or_eq_of_le h2 with h | h
        · exact h
        · exfalso
          have hdnil : path.drop idx = [] := by
            rw [h]
            simp
          rw [hdnil] at hdrop
          have hlp : path.getLast? = some cur := by
            calc path.getLast?
                = (path.take (idx - 1) ++ path.drop (idx - 1)).getLast? := by
                  rw [List.take_append_drop]
              _ = (path.drop (idx - 1)).getLast? :=
                  List.getLast?_append_of_ne_nil _ (by rw [hdrop]; simp)
              _ = some cur := by rw [hdrop]; rfl
          rw [hplast] at hlp
          injection hlp with hlc
          exact hcl hlc.symm
      have hslice_ne : path.drop idx ≠ [] := by
        apply List.ne_nil_of_length_pos
        rw [List.length_drop]
        omega
      have hslice_last : (path.drop idx).getLast? = some lastPt := by
        calc (path.drop idx).getLast?
            = (path.take idx ++ path.drop idx).getLast? :=
              (List.getLast?_append_of_ne_nil _ hslice_ne).symm
          _ = path.getLast? := by rw [List.take_append_drop]
          _ = some lastPt := hplast
      have hchain_suffix :
          List.Chain' (fun a b => B a b = false) (cur :: path.drop idx) := by
        rw [← hdrop]
        exact chain_drop hchain _
      rcases List.exists_cons_of_ne_nil hslice_ne with ⟨h0, t0, hslice_eq⟩
      have hfree0 : B cur h0 = false := by
        rw [hslice_eq] at hchain_suffix
        exact (List.chain'_cons.mp hchain_suffix).1
      rcases scanFw_total_spec B lastPt cur (path.drop idx) cur hslice_ne
        hslice_last with ⟨p, k, hscan, hk, hdisj, hhead⟩
      have hk1 : 1 ≤ k := hhead h0 t0 hslice_eq hfree0
      rcases hdisj with ⟨hk0, -⟩ | ⟨-, hfreep, hdropk⟩
      · omega
      have hklen : k ≤ path.length - idx := by
        rw [List.length_drop] at hk
        exact hk
      have hdrop2 : path.drop (idx + k - 1) = p :: path.drop (idx + k) := by
        have e1 : path.drop (idx + k - 1) = (path.drop idx).drop (k - 1) := by
          rw [List.drop_drop]
          congr 1
          omega
        have e2 : path.drop (idx + k) = (path.drop idx).drop k := by
          rw [List.drop_drop]
        rw [e1, e2, hdropk]
      have hhead2 : (newPath ++ [p]).head? = path.head? := by
        rcases List.exists_cons_of_ne_nil hne with ⟨a, t, rfl⟩
        simpa using hheadc
      have hchain2 : List.Chain' (fun a b => B a b = false) (newPath ++ [p]) := by
        refine List.chain'_append.mpr ⟨hchainNP, by simp, ?_⟩
        intro x hx y hy
        rw [hlastc] at hx
        simp at hx hy
        rw [← hx, ← hy]
        exact hfreep
      rcases ih (newPath ++ [p]) p (idx + k) (by omega) (by omega) hdrop2
        (by simp) (List.getLast?_concat _) hhead2 hchain2
        (by rw [List.length_append]; simp; omega) (by omega) with
        ⟨out, hout, hch, hcl2, hcc, hlen2⟩
      refine ⟨out, ?_, hch, hcl2, hcc, hlen2⟩
      simp only [simplifyAux, hcl, if_false, hscan]
      exact hout

/-- C3: for a raw path whose consecutive segments all pass the collision
check, simplification (with fuel equal to the path length, which part of
the C10 analysis shows suffices) returns a path with the same first and
last points, all consecutive pairs unblocked, and no more points than the
raw path. -/
theorem simplify_non_degradation {α : Type} [DecidableEq α] (B : α → α → Bool)
    (path : List α) (hne : path ≠ [])
    (hchain : List.Chain' (fun a b => B a b = false) path) :
    ∃ out, simplifyPath (totalCheck B) path.length path = some out ∧
      out.head? = path.head? ∧ out.getLast? = path.getLast? ∧
      List.Chain' (fun a b => B a b = false) out ∧
      out.length ≤ path.length := by
  rcases List.exists_cons_of_ne_nil hne with ⟨p0, rest, rfl⟩
  have hplast : (p0 :: rest).getLast? =
      some ((p0 :: rest).getLast (by simp)) := List.getLast?_eq_getLast _ _
  rcases simplifyAux_total_spec B (p0 :: rest) ((p0 :: rest).getLast (by simp))
      hchain hplast ((p0 :: rest).length) [p0] p0 1 (le_refl 1) (by simp)
      (by simp) (by simp) (by simp) (by simp) (by simp) (by simp)
      (by omega) with ⟨out, hout, hh, hl, hc, hlen⟩
  refine ⟨out, ?_, hh, ?_, hc, hlen⟩
  · simpa [simplifyPath] using hout
  · rw [hl, hplast]

/-- Witness for `simplify_non_degradation` on the three-point path
`[0, 1, 2]` with a collision check that never blocks. -/
theorem simplify_non_degradation_witness :
    ∃ out, simplifyPath (totalCheck (fun _ _ : ℕ => false)) 3 [0, 1, 2] = some out ∧
      out.head? = some 0 ∧ out.getLast? = some 2 ∧ out.length ≤ 3 := by
  rcases simplify_non_degradation (fun _ _ : ℕ => false) [0, 1, 2] (by simp)
    (by simp) with ⟨out, h1, h2, h3, -, h5⟩
  exact ⟨out, h1, by simpa using h2, by simpa using h3, by simpa using h5⟩

theorem simplifyAux_allBlocked_none :
    ∀ (fuel : ℕ) (newPath : List ℕ),
      simplifyAux (fun _ _ : ℕ => some true) [0, 1] 1 fuel newPath 0 1 = none := by
  intro fuel
  induction fuel with
  | zero => intro newPath; rfl
  | succ f ih =>
    intro newPath
    have h2 : simplifyAux (fun _ _ : ℕ => some true) [0, 1] 1 (f + 1) newPath 0 1 =
        simplifyAux (fun _ _ : ℕ => some true) [0, 1] 1 f (newPath ++ [0]) 0 1 := by
      simp [simplifyAux, scanFw]
    rw [h2]
    exact ih (newPath ++ [0])

/-- C10: with every consecutive raw segment unblocked, the simplification
loop terminates within `path.length` outer iterations (each pass advances
the index); without that precondition it can fail to terminate — with a
check that blocks everything, the loop re-appends its anchor forever and
no amount of fuel produces a result. -/
theorem simplify_termination_conditions :
    (∀ (α : Type) [DecidableEq α] (B : α → α → Bool) (path : List α),
      2 ≤ path.length →
      List.Chain' (fun a b => B a b = false) path →
      (simplifyPath (totalCheck B) path.length path).isSome = true) ∧
    (∀ fuel : ℕ, simplifyPath (fun _ _ : ℕ => some true) fuel [0, 1] = none) := by
  constructor
  · intro α inst B path hlen hchain
    have hne : path ≠ [] := by
      intro h
      rw [h] at hlen
      simp at hlen
    rcases List.exists_cons_of_ne_nil hne with ⟨p0, rest, rfl⟩
    have hplast : (p0 :: rest).getLast? =
        some ((p0 :: rest).getLast (by simp)) := List.getLast?_eq_getLast _ _
    rcases simplifyAux_total_spec B (p0 :: rest) ((p0 :: rest).getLast (by simp))
        hchain hplast ((p0 :: rest).length) [p0] p0 1 (le_refl 1) (by simp)
        (by simp) (by simp) (by simp) (by simp) (by simp) (by simp)
        (by omega) with ⟨out, hout, -, -, -, -⟩
    have : simplifyPath (totalCheck B) (p0 :: rest).length (p0 :: rest) = some out := by
      simpa [simplifyPath] using hout
    rw [this]
    rfl
  · intro fuel
    have : simplifyPath (fun _ _ : ℕ => some true) fuel [0, 1] =
        simplifyAux (fun _ _ : ℕ => some true) [0, 1] 1 fuel [0] 0 1 := rfl
    rw [this]
    exact simplifyAux_allBlocked_none fuel [0]

/-- Witness for `simplify_termination_conditions`: the all-free check on
`[0, 1]` terminates with fuel `2`; the all-blocked check on `[0, 1]`
yields no result even with fuel `7`. -/
theorem simplify_termination_conditions_witness :
    (simplifyPath (totalCheck (fun _ _ : ℕ => false)) 2 [0, 1]).isSome = true ∧
      simplifyPath (fun _ _ : ℕ => some true) 7 [0, 1] = none := by
  refine ⟨?_, simplify_termination_conditions.2 7⟩
  have h := simplify_termination_conditions.1 ℕ (fun _ _ => false) [0, 1]
    (by simp) (by simp)
  simpa using h

/-- Planner configuration: the `RRTStar.__init__` parameters used by the
claims (`max_iter` is the budget argument of `findPath`). -/
structure Cfg where
  start : Pt
  goal : Pt
  obstacles : List Obstacle
  grid : Grid
  scale : ℚ
  thr : ℚ
  stepSize : ℚ
  radius : ℚ
  simplify : Bool

/-- `self.goal_tolerance = step_size / 2` (set in `__init__`). -/
def goalTol (cfg : Cfg) : ℚ := cfg.stepSize / 2

/-- Planner tree state: the parallel structures `self.nodes`,
`self.parent`, `self.cost` (costs are real because edge costs involve
Euclidean distances). -/
structure PState where
  nodes : List Pt
  parent : List (Option ℕ)
  cost : List ℝ

/-- The tree after `__init__`: the root (index 0) is the start point with
`parent[0] = None` and `cost[0] = 0`. -/
def initState (cfg : Cfg) : PState := ⟨[cfg.start], [none], [(0 : ℝ)]⟩

/-- Running first-minimum scan for `_nearest_node` (squared distances). -/
def argminAux (p : Pt) : List Pt → ℕ → ℕ → ℚ → ℕ
  | [], _, bi, _ => bi
  | q :: rest, i, bi, bd =>
    if sqDist q p < bd then argminAux p rest (i + 1) i (sqDist q p)
    else argminAux p rest (i + 1) bi bd

/-- `RRTStar._nearest_node`: the index of least Euclidean distance to the
point, first index on ties (`distances.index(min(distances))`). -/
def nearestIdx (nodes : List Pt) (p : Pt) : ℕ :=
  match nodes with
  | [] => 0
  | q :: rest => argminAux p rest 1 0 (sqDist q p)

/-- `RRTStar._get_near_nodes`: indices of nodes with Euclidean distance to
`p` strictly between `0` and `radius`. -/
def nearNodes (nodes : List Pt) (p : Pt) (r : ℚ) : List ℕ :=
  (List.range nodes.length).filter fun i =>
    ltNorm (sqDist (nodes.getD i p) p) r && decide (0 < sqDist (nodes.getD i p) p)

/-- The best-parent loop of `find_path`: scans the near nodes keeping the
running `(min_parent, min_cost)`; a candidate needs an unblocked segment
to `new_point` and a strictly lower `cost[idx] + path_cost(node,
new_point)`.  `none` models a raised exception from the segment check. -/
noncomputable def chooseParentAux (cfg : Cfg) (nodes1 : List Pt) (cost : List ℝ) (np : Pt) :
    List ℕ → ℕ × ℝ → Option (ℕ × ℝ)
  | [], best => some best
  | i :: rest, best =>
    match isCollisionSeg cfg.obstacles cfg.grid cfg.thr cfg.scale
        (nodes1.getD i np) np with
    | none => none
    | some true => chooseParentAux cfg nodes1 cost np rest best
    | some false =>
      chooseParentAux cfg nodes1 cost np rest
        (if cost.getD i 0 + pathCost cfg.grid cfg.scale (nodes1.getD i np) np <
            best.2 then
          (i, cost.getD i 0 + pathCost cfg.grid cfg.scale (nodes1.getD i np) np)
        else best)

/-- One step of the rewiring loop over a near node `i`; the rewire target
`t` is the newest node `parent.length - 1` (`new_idx`).  `idx ==
min_parent` (the parent of `t`) is skipped; re-parenting requires a
strictly lower rerouted cost and (checked second, as the `and`
short-circuits) an unblocked segment from `new_point`. -/
noncomputable def rewireOne (cfg : Cfg) (s : PState) (np : Pt) (i : ℕ) : Option PState :=
  let t := s.parent.length - 1
  if s.parent.getD t none = some i then some s
  else
    let newCost := s.cost.getD t 0 +
      pathCost cfg.grid cfg.scale np (s.nodes.getD i np)
    if newCost < s.cost.getD i 0 then
      match isCollisionSeg cfg.obstacles cfg.grid cfg.thr cfg.scale np
          (s.nodes.getD i np) with
      | none => none
      | some true => some s
      | some false =>
        some ⟨s.nodes, s.parent.set i (some t), s.cost.set i newCost⟩
    else some s

/-- The rewiring loop over all near nodes. -/
noncomputable def rewireAll (cfg : Cfg) (np : Pt) : List ℕ → PState → Option PState
  | [], s => some s
  | i :: rest, s =>
    match rewireOne cfg s np i with
    | none => none
    | some s2 => rewireAll cfg np rest s2

/-- The parent walk of `_reconstruct_path`, collecting nodes from a
terminal index back to the root (fuel-indexed; a cyclic parent map would
make the source loop forever, modelled by fuel exhaustion). -/
def walkParents (s : PState) : ℕ → ℕ → Option (List Pt)
  | 0, _ => none
  | f + 1, cur =>
    match s.parent.getD cur none with
    | none => some [s.nodes.getD cur (0, 0)]
    | some pidx => (walkParents s f pidx).map fun l => s.nodes.getD cur (0, 0) :: l

/-- `RRTStar._reconstruct_path`: walk parents from `goal_idx`, reverse,
and apply `_simplify_path` when `simplify` is enabled (fuel `length` is
exactly enough whenever the source loop terminates). -/
def reconstructPath (cfg : Cfg) (s : PState) (gi : ℕ) : Option (List Pt) :=
  match walkParents s (s.parent.length + 1) gi with
  | none => none
  | some collected =>
    if cfg.simplify then
      simplifyPath (isCollisionSeg cfg.obstacles cfg.grid cfg.thr cfg.scale)
        collected.reverse.length collected.reverse
    else some collected.reverse

/-- The state after the goal append of `find_path`: goal node with
`parent[goal_idx] = new_idx` and
`cost[goal_idx] = cost[new_idx] + path_cost(new_point, goal)`, where
`new_idx = parent.length - 1` indexes the newest node `new_point`. -/
noncomputable def goalExtState (cfg : Cfg) (s : PState) (np : Pt) : PState :=
  ⟨s.nodes ++ [cfg.goal],
   s.parent ++ [some (s.parent.length - 1)],
   s.cost ++ [s.cost.getD (s.parent.length - 1) 0 +
     pathCost cfg.grid cfg.scale np cfg.goal]⟩

/-- The goal check ending a successful extension: within
`goal_tolerance` of the goal and with an unblocked segment, append the
goal and return the reconstructed path; otherwise the iteration
continues with the state unchanged. -/
noncomputable def goalCheck (cfg : Cfg) (s : PState) (np : Pt) :
    Option (PState × Option (List Pt)) :=
  if ltNorm (sqDist np cfg.goal) (goalTol cfg) then
    match isCollisionSeg cfg.obstacles cfg.grid cfg.thr cfg.scale np cfg.goal with
    | none => none
    | some true => some (s, none)
    | some false =>
      match reconstructPath cfg (goalExtState cfg s np)
          ((goalExtState cfg s np).parent.length - 1) with
      | none => none
      | some p => some (goalExtState cfg s np, some p)
  else some (s, none)

/-- The sampling loop of one iteration.  Candidates are oracle-supplied
pairs `(rand_point, new_point)`: `rand_point` is the random draw (or the
goal, with the 0.1 bias) and `new_point` stands for
`steer(nodes[nearest], rand_point)`, supplied by the oracle because the
steering normalization is irrational in general.  The loop takes the
first candidate whose steered point passes the validity gate; an
exhausted candidate list models a rejection loop that never succeeds
(the source would spin forever). -/
def findCand (cfg : Cfg) (s : PState) : List (Pt × Pt) → Option (ℕ × Pt)
  | [] => none
  | (r, np) :: rest =>
    if validGate cfg.obstacles cfg.grid cfg.scale cfg.thr np then
      some (nearestIdx s.nodes r, np)
    else findCand cfg s rest

/-- One iteration of the `find_path` main loop: candidate search,
extension collision check, node append with best-parent selection,
rewiring, goal check.  `none` models an iteration that does not return
normally (raised exception or endless sampling); `some (s2, none)`
continues with the grown state; `some (s2, some p)` returns path `p`. -/
noncomputable def iterBody (cfg : Cfg) (s : PState) (cands : List (Pt × Pt)) :
    Option (PState × Option (List Pt)) :=
  match findCand cfg s cands with
  | none => none
  | some (ni, np) =>
    match isCollisionSeg cfg.obstacles cfg.grid cfg.thr cfg.scale
        (s.nodes.getD ni np) np with
    | none => none
    | some true => some (s, none)
    | some false =>
      match chooseParentAux cfg (s.nodes ++ [np]) s.cost np
          (nearNodes (s.nodes ++ [np]) np cfg.radius)
          (ni, s.cost.getD ni 0 +
            pathCost cfg.grid cfg.scale (s.nodes.getD ni np) np) with
      | none => none
      | some best =>
        match rewireAll cfg np (nearNodes (s.nodes ++ [np]) np cfg.radius)
            ⟨s.nodes ++ [np], s.parent ++ [some best.1], s.cost ++ [best.2]⟩ with
        | none => none
        | some s2 => goalCheck cfg s2 np

/-- `RRTStar.find_path` on an oracle giving each iteration's sampling
candidates.  The nested options distinguish `none` (no normal return: a
raised exception or an endless inner loop), `some none` (the explicit
`return None` once the budget is spent) and `some (some p)` (a path). -/
noncomputable def findPathAux (cfg : Cfg) (oracle : ℕ → List (Pt × Pt)) :
    ℕ → ℕ → PState → Option (Option (List Pt))
  | 0, _, _ => some none
  | b + 1, k, s =>
    match iterBody cfg s (oracle k) with
    | none => none
    | some (_, some p) => some (some p)
    | some (s2, none) => findPathAux cfg oracle b (k + 1) s2

/-- `find_path` from the freshly constructed planner state. -/
noncomputable def findPath (cfg : Cfg) (oracle : ℕ → List (Pt × Pt)) (budget : ℕ) :
    Option (Option (List Pt)) :=
  findPathAux cfg oracle budget 0 (initState cfg)

/-- The run exhausts its whole budget: every iteration returns normally
without connecting to the goal. -/
def Exhausts (cfg : Cfg) (oracle : ℕ → List (Pt × Pt)) : ℕ → ℕ → PState → Prop
  | 0, _, _ => True
  | b + 1, k, s =>
    ∃ s2, iterBody cfg s (oracle k) = some (s2, none) ∧
      Exhausts cfg oracle b (k + 1) s2

/-- One parent-pointer step: `parent[i]` when assigned, else stay (the
root, whose parent is `None`, maps to itself). -/
def pstep (s : PState) (i : ℕ) : ℕ :=
  (s.parent.getD i none).getD i

/-- Following parent pointers from `i` reaches the root (index 0) in
finitely many steps. -/
def ReachesRoot (s : PState) (i : ℕ) : Prop :=
  ∃ k : ℕ, (pstep s)^[k] i = 0

/-- The state after appending a node `np` with parent `p`: the shape of
every node append in `find_path` (initial extension, best-parent
selection, goal append), with `cost[new] = cost[p] + path_cost(node[p],
new_point)`. -/
noncomputable def extendState (cfg : Cfg) (s : PState) (np : Pt) (p : ℕ) : PState :=
  ⟨s.nodes ++ [np], s.parent ++ [some p],
   s.cost ++ [s.cost.getD p 0 +
     pathCost cfg.grid cfg.scale (s.nodes.getD p np) np]⟩

/-- The state after re-parenting near node `i` to the newest node
`t = parent.length - 1`, with `cost[i] = cost[t] + path_cost(node[t],
node[i])`: the shape of the assignment in the rewiring loop. -/
noncomputable def rewireState (cfg : Cfg) (s : PState) (i : ℕ) : PState :=
  ⟨s.nodes, s.parent.set i (some (s.parent.length - 1)),
   s.cost.set i (s.cost.getD (s.parent.length - 1) 0 +
     pathCost cfg.grid cfg.scale (s.nodes.getD (s.parent.length - 1) (0, 0))
       (s.nodes.getD i (0, 0)))⟩

/-- The individual tree mutations performed by `find_path`: appending a
node under an existing parent, and rewiring a near node `i` (distinct
from the newest node, not the newest node's parent) to the newest node
when the guard `new_cost < cost[idx]` of the rewiring loop holds. -/
inductive MicroStep (cfg : Cfg) : PState → PState → Prop
  | extend (s : PState) (np : Pt) (p : ℕ) (hp : p < s.parent.length) :
      MicroStep cfg s (extendState cfg s np p)
  | rewire (s : PState) (i : ℕ) (hi : i < s.parent.length)
      (hit : i ≠ s.parent.length - 1)
      (hpar : s.parent.getD (s.parent.length - 1) none ≠ some i)
      (hguard : s.cost.getD (s.parent.length - 1) 0 +
          pathCost cfg.grid cfg.scale
            (s.nodes.getD (s.parent.length - 1) (0, 0))
            (s.nodes.getD i (0, 0)) < s.cost.getD i 0) :
      MicroStep cfg s (rewireState cfg s i)

/-- The tree invariant maintained by `find_path`: parallel lengths agree,
the root exists with `parent = None` and `cost = 0`, costs are
nonnegative, every assigned parent is in range with a cost no larger than
its child's, and every node reaches the root by following parents. -/
structure PlanInv (s : PState) : Prop where
  hnp : s.nodes.length = s.parent.length
  hcp : s.cost.length = s.parent.length
  hpos : 0 < s.parent.length
  hroot : s.parent.getD 0 none = none
  hc0 : s.cost.getD 0 0 = 0
  hnn : ∀ j, j < s.parent.length → 0 ≤ s.cost.getD j 0
  hpar : ∀ j, j < s.parent.length → ∀ q, s.parent.getD j none = some q →
    q < s.parent.length ∧ s.cost.getD q 0 ≤ s.cost.getD j 0
  hacy : ∀ j, j < s.parent.length → ReachesRoot s j

theorem planInv_init (cfg : Cfg) : PlanInv (initState cfg) := by
  refine ⟨rfl, rfl, by simp [initState], rfl, rfl, ?_, ?_, ?_⟩
  · intro j hj
    simp [initState] at hj
    subst hj
    simp [initState]
  · intro j hj q hq
    simp [initState] at hj
    subst hj
    simp [initState, List.getD] at hq
  · intro j hj
    simp [initState] at hj
    subst hj
    exact ⟨0, rfl⟩

theorem pstep_bound {s : PState} (inv : PlanInv s) {j : ℕ}
    (hj : j < s.parent.length) :
    pstep s j < s.parent.length ∧
      s.cost.getD (pstep s j) 0 ≤ s.cost.getD j 0 := by
  unfold pstep
  cases hq : s.parent.getD j none with
  | none => exact ⟨by simpa using hj, by simp⟩
  | some q =>
    rcases inv.hpar j hj q hq with ⟨h1, h2⟩
    exact ⟨by simpa using h1, by simpa using h2⟩

theorem iterate_bound {s : PState} (inv : PlanInv s) :
    ∀ (k : ℕ) {j : ℕ}, j < s.parent.length →
      (pstep s)^[k] j < s.parent.length ∧
        s.cost.getD ((pstep s)^[k] j) 0 ≤ s.cost.getD j 0 := by
  intro k
  induction k with
  | zero => intro j hj; exact ⟨hj, le_refl _⟩
  | succ m ih =>
    intro j hj
    rw [Function.iterate_succ_apply]
    rcases pstep_bound inv hj with ⟨h1, h2⟩
    rcases ih h1 with ⟨h3, h4⟩
    exact ⟨h3, le_trans h4 h2⟩

theorem getD_concat_self {β : Type} (l : List β) (a d : β) :
    (l ++ [a]).getD l.length d = a := by
  simp [List.getD_append_right]

theorem getD_set_self {β : Type} (l : List β) (i : ℕ) (a d : β)
    (h : i < l.length) : (l.set i a).getD i d = a := by
  rw [List.getD_eq_getElem?_getD, List.getElem?_set_self h]
  rfl

theorem getD_set_ne {β : Type} (l : List β) (i j : ℕ) (a d : β) (h : i ≠ j) :
    (l.set i a).getD j d = l.getD j d := by
  rw [List.getD_eq_getElem?_getD, List.getElem?_set_ne h,
    ← List.getD_eq_getElem?_getD]

theorem pstep_extend_eq (cfg : Cfg) (s : PState) (np : Pt) (p : ℕ) {j : ℕ}
    (hj : j < s.parent.length) :
    pstep (extendState cfg s np p) j = pstep s j := by
  unfold pstep extendState
  simp only
  rw [List.getD_append _ _ none j hj]

theorem pstep_extend_new (cfg : Cfg) (s : PState) (np : Pt) (p : ℕ) :
    pstep (extendState cfg s np p) s.parent.length = p := by
  unfold pstep extendState
  simp only
  rw [getD_concat_self]
  rfl

theorem iterate_extend_eq (cfg : Cfg) {s : PState} (inv : PlanInv s)
    (np : Pt) (p : ℕ) :
    ∀ (k : ℕ) {j : ℕ}, j < s.parent.length →
      (pstep (extendState cfg s np p))^[k] j = (pstep s)^[k] j := by
  intro k
  induction k with
  | zero => intro j _; rfl
  | succ m ih =>
    intro j hj
    rw [Function.iterate_succ_apply, Function.iterate_succ_apply,
      pstep_extend_eq cfg s np p hj]
    exact ih (pstep_bound inv hj).1

theorem planInv_extend (cfg : Cfg) (hg : gridNonneg cfg.grid) {s : PState}
    (np : Pt) (p : ℕ) (hp : p < s.parent.length) (inv : PlanInv s) :
    PlanInv (extendState cfg s np p) := by
  have hpc : 0 ≤ pathCost cfg.grid cfg.scale (s.nodes.getD p np) np :=
    pathCost_nonneg cfg.grid hg cfg.scale _ _
  have hclen : s.cost.length = s.parent.length := inv.hcp
  have hparlen : (extendState cfg s np p).parent.length = s.parent.length + 1 := by
    simp [extendState]
  have hcostD : ∀ j, j < s.parent.length →
      (extendState cfg s np p).cost.getD j 0 = s.cost.getD j 0 := by
    intro j hj
    show (s.cost ++ [_]).getD j 0 = s.cost.getD j 0
    exact List.getD_append _ _ 0 j (by omega)
  have hcostN : (extendState cfg s np p).cost.getD s.parent.length 0 =
      s.cost.getD p 0 + pathCost cfg.grid cfg.scale (s.nodes.getD p np) np := by
    show (s.cost ++ [_]).getD s.parent.length 0 = _
    rw [← hclen, getD_concat_self]
  have hparD : ∀ j, j < s.parent.length →
      (extendState cfg s np p).parent.getD j none = s.parent.getD j none := by
    intro j hj
    exact List.getD_append _ _ none j hj
  have hparN : (extendState cfg s np p).parent.getD s.parent.length none =
      some p := getD_concat_self _ _ _
  constructor
  · simp [extendState, inv.hnp]
  · simp [extendState, inv.hcp]
  · simp [extendState]
  · rw [hparD 0 inv.hpos]
    exact inv.hroot
  · rw [hcostD 0 inv.hpos]
    exact inv.hc0
  · intro j hj
    rw [hparlen] at hj
    rcases Nat.lt_or_ge j s.parent.length with h | h
    · rw [hcostD j h]
      exact inv.hnn j h
    · have hj2 : j = s.parent.length := by omega
      rw [hj2, hcostN]
      exact add_nonneg (inv.hnn p hp) hpc
  · intro j hj q hq
    rw [hparlen] at hj
    rcases Nat.lt_or_ge j s.parent.length with h | h
    · rw [hparD j h] at hq
      rcases inv.hpar j h q hq with ⟨h1, h2⟩
      rw [hcostD j h, hcostD q h1]
      exact ⟨by omega, h2⟩
    · have hj2 : j = s.parent.length := by omega
      rw [hj2, hparN] at hq
      injection hq with hq2
      subst hq2
      rw [hj2, hcostN, hcostD p hp]
      exact ⟨by omega, le_add_of_nonneg_right hpc⟩
  · intro j hj
    rw [hparlen] at hj
    rcases Nat.lt_or_ge j s.parent.length with h | h
    · rcases inv.hacy j h with ⟨k, hk⟩
      exact ⟨k, by rw [iterate_extend_eq cfg inv np p k h]; exact hk⟩
    · have hj2 : j = s.parent.length := by omega
      rcases inv.hacy p hp with ⟨k, hk⟩
      refine ⟨k + 1, ?_⟩
      rw [hj2, Function.iterate_succ_apply, pstep_extend_new,
        iterate_extend_eq cfg inv np p k hp]
      exact hk

theorem pstep_rewire_ne (cfg : Cfg) (s : PState) (i : ℕ) {j : ℕ} (h : i ≠ j) :
    pstep (rewireState cfg s i) j = pstep s j := by
  unfold pstep rewireState
  simp only
  rw [getD_set_ne _ _ _ _ _ h]

theorem pstep_rewire_self (cfg : Cfg) (s : PState) (i : ℕ)
    (h : i < s.parent.length) :
    pstep (rewireState cfg s i) i = s.parent.length - 1 := by
  unfold pstep rewireState
  simp only
  rw [getD_set_self _ _ _ _ h]
  rfl

theorem planInv_rewire (cfg : Cfg) (hg : gridNonneg cfg.grid) {s : PState}
    (i : ℕ) (hi : i < s.parent.length) (hit : i ≠ s.parent.length - 1)
    (hpar2 : s.parent.getD (s.parent.length - 1) none ≠ some i)
    (hguard : s.cost.getD (s.parent.length - 1) 0 +
      pathCost cfg.grid cfg.scale (s.nodes.getD (s.parent.length - 1) (0, 0))
        (s.nodes.getD i (0, 0)) < s.cost.getD i 0)
    (inv : PlanInv s) : PlanInv (rewireState cfg s i) := by
  have hclen : s.cost.length = s.parent.length := inv.hcp
  have hpc : 0 ≤ pathCost cfg.grid cfg.scale
      (s.nodes.getD (s.parent.length - 1) (0, 0)) (s.nodes.getD i (0, 0)) :=
    pathCost_nonneg cfg.grid hg cfg.scale _ _
  have ht : s.parent.length - 1 < s.parent.length := by
    have := inv.hpos
    omega
  have hi0 : i ≠ 0 := by
    intro h0
    subst h0
    rw [inv.hc0] at hguard
    have h1 := inv.hnn (s.parent.length - 1) ht
    linarith
  have hparlen : (rewireState cfg s i).parent.length = s.parent.length := by
    simp [rewireState]
  have hcostD : ∀ j, i ≠ j →
      (rewireState cfg s i).cost.getD j 0 = s.cost.getD j 0 := by
    intro j hj
    exact getD_set_ne _ _ _ _ _ hj
  have hcostI : (rewireState cfg s i).cost.getD i 0 =
      s.cost.getD (s.parent.length - 1) 0 +
        pathCost cfg.grid cfg.scale
          (s.nodes.getD (s.parent.length - 1) (0, 0))
          (s.nodes.getD i (0, 0)) := by
    exact getD_set_self _ _ _ _ (by omega)
  have hparD : ∀ j, i ≠ j →
      (rewireState cfg s i).parent.getD j none = s.parent.getD j none := by
    intro j hj
    exact getD_set_ne _ _ _ _ _ hj
  have hparI : (rewireState cfg s i).parent.getD i none =
      some (s.parent.length - 1) := getD_set_self _ _ _ _ hi
  -- the old parent chain from the rewire target never passes through i
  have havoid : ∀ k, (pstep s)^[k] (s.parent.length - 1) ≠ i := by
    intro k hk
    have hb := iterate_bound inv k ht
    rw [hk] at hb
    linarith [hb.2]
  have hchain_eq : ∀ (k : ℕ) (j : ℕ), (∀ m, (pstep s)^[m] j ≠ i) →
      (pstep (rewireState cfg s i))^[k] j = (pstep s)^[k] j := by
    intro k
    induction k with
    | zero => intro j _; rfl
    | succ m ih =>
      intro j hj
      have hij : i ≠ j := fun h => hj 0 (by simpa using h.symm)
      rw [Function.iterate_succ_apply, Function.iterate_succ_apply,
        pstep_rewire_ne cfg s i hij]
      refine ih (pstep s j) ?_
      intro m2 hm2
      exact hj (m2 + 1) (by rw [Function.iterate_succ_apply]; exact hm2)
  have hRt : ReachesRoot (rewireState cfg s i) (s.parent.length - 1) := by
    rcases inv.hacy (s.parent.length - 1) ht with ⟨k, hk⟩
    exact ⟨k, by rw [hchain_eq k _ havoid]; exact hk⟩
  have htransfer : ∀ (k : ℕ) (j : ℕ), (pstep s)^[k] j = 0 →
      ReachesRoot (rewireState cfg s i) j := by
    intro k
    induction k with
    | zero =>
      intro j hj
      exact ⟨0, hj⟩
    | succ m ih =>
      intro j hj
      by_cases hji : j = i
      · subst hji
        rcases hRt with ⟨kt, hkt⟩
        refine ⟨kt + 1, ?_⟩
        rw [Function.iterate_succ_apply, pstep_rewire_self cfg s j hi]
        exact hkt
      · rw [Function.iterate_succ_apply] at hj
        rcases ih (pstep s j) hj with ⟨k2, hk2⟩
        refine ⟨k2 + 1, ?_⟩
        rw [Function.iterate_succ_apply,
          pstep_rewire_ne cfg s i (fun h => hji h.symm)]
        exact hk2
  constructor
  · simp [rewireState, inv.hnp]
  · simp [rewireState, inv.hcp]
  · rw [hparlen]; exact inv.hpos
  · rw [hparD 0 hi0]
    exact inv.hroot
  · rw [hcostD 0 hi0]
    exact inv.hc0
  · intro j hj
    rw [hparlen] at hj
    by_cases hji : i = j
    · subst hji
      rw [hcostI]
      exact add_nonneg (inv.hnn _ ht) hpc
    · rw [hcostD j hji]
      exact inv.hnn j hj
  · intro j hj q hq
    rw [hparlen] at hj
    by_cases hji : i = j
    · subst hji
      rw [hparI] at hq
      injection hq with hq2
      subst hq2
      rw [hparlen]
      refine ⟨by omega, ?_⟩
      rw [hcostI, hcostD _ (fun h => hit h)]
      exact le_add_of_nonneg_right hpc
    · rw [hparD j hji] at hq
      rcases inv.hpar j hj q hq with ⟨h1, h2⟩
      rw [hparlen, hcostD j hji]
      by_cases hqi : i = q
      · subst hqi
        rw [hcostI]
        refine ⟨h1, le_of_lt ?_⟩
        calc s.cost.getD (s.parent.length - 1) 0 +
            pathCost cfg.grid cfg.scale
              (s.nodes.getD (s.parent.length - 1) (0, 0))
              (s.nodes.getD i (0, 0)) < s.cost.getD i 0 := hguard
          _ ≤ s.cost.getD j 0 := h2
      · rw [hcostD q hqi]
        exact ⟨h1, h2⟩
  · intro j hj
    rw [hparlen] at hj
    rcases inv.hacy j hj with ⟨k, hk⟩
    exact htransfer k j hk

theorem planInv_micro (cfg : Cfg) (hg : gridNonneg cfg.grid) {a b : PState}
    (h : MicroStep cfg a b) (inv : PlanInv a) : PlanInv b := by
  cases h with
  | extend np p hp => exact planInv_extend cfg hg np p hp inv
  | rewire i hi hit hpar2 hguard =>
    exact planInv_rewire cfg hg i hi hit hpar2 hguard inv

theorem planInv_rtg (cfg : Cfg) (hg : gridNonneg cfg.grid) {a b : PState}
    (h : Relation.ReflTransGen (MicroStep cfg) a b) (inv : PlanInv a) :
    PlanInv b := by
  induction h with
  | refl => exact inv
  | tail _ h2 ih => exact planInv_micro cfg hg h2 ih

theorem getD_irrel {β : Type} (l : List β) (i : ℕ) (d1 d2 : β)
    (h : i < l.length) : l.getD i d1 = l.getD i d2 := by
  rw [List.getD_eq_getElem?_getD, List.getD_eq_getElem?_getD,
    List.getElem?_eq_getElem h]
  rfl

theorem sqDist_self (a : Pt) : sqDist a a = 0 := by
  simp [sqDist]

theorem argminAux_lt (p : Pt) (n : ℕ) :
    ∀ (l : List Pt) (i bi : ℕ) (bd : ℚ), bi < n → i + l.length ≤ n →
      argminAux p l i bi bd < n := by
  intro l
  induction l with
  | nil => intro i bi bd h1 _; simpa [argminAux] using h1
  | cons q rest ih =>
    intro i bi bd h1 h2
    simp only [List.length_cons] at h2
    simp only [argminAux]
    split
    · exact ih (i + 1) i _ (by omega) (by omega)
    · exact ih (i + 1) bi _ h1 (by omega)

theorem nearestIdx_lt (nodes : List Pt) (p : Pt) (h : nodes ≠ []) :
    nearestIdx nodes p < nodes.length := by
  rcases List.exists_cons_of_ne_nil h with ⟨q, rest, rfl⟩
  simp only [nearestIdx, List.length_cons]
  exact argminAux_lt p _ rest 1 0 _ (by omega) (by omega)

theorem nearNodes_lt {nodes : List Pt} {p : Pt} {r : ℚ} {i : ℕ}
    (h : i ∈ nearNodes nodes p r) :
    i < nodes.length ∧ 0 < sqDist (nodes.getD i p) p := by
  unfold nearNodes at h
  rcases List.mem_filter.mp h with ⟨h1, h2⟩
  simp only [Bool.and_eq_true, decide_eq_true_eq] at h2
  exact ⟨List.mem_range.mp h1, h2.2⟩

theorem nearNodes_append_lt (nodes : List Pt) (np : Pt) (r : ℚ) :
    ∀ i ∈ nearNodes (nodes ++ [np]) np r, i < nodes.length := by
  intro i hi
  rcases nearNodes_lt hi with ⟨h1, h2⟩
  simp only [List.length_append, List.length_cons, List.length_nil] at h1
  by_contra h
  have hieq : i = nodes.length := by omega
  rw [hieq, getD_concat_self, sqDist_self] at h2
  exact lt_irrefl 0 h2

/-- Invariant of the best-parent scan: the running pair indexes an
existing node and its cost has the `cost[idx] + path_cost(node,
new_point)` shape. -/
def parentOK (cfg : Cfg) (nodes1 : List Pt) (cost : List ℝ) (np : Pt)
    (n : ℕ) (b : ℕ × ℝ) : Prop :=
  b.1 < n ∧
    b.2 = cost.getD b.1 0 + pathCost cfg.grid cfg.scale (nodes1.getD b.1 np) np

theorem chooseParentAux_spec (cfg : Cfg) (nodes1 : List Pt) (cost : List ℝ)
    (np : Pt) (n : ℕ) :
    ∀ (l : List ℕ) (best res : ℕ × ℝ), (∀ i ∈ l, i < n) →
      parentOK cfg nodes1 cost np n best →
      chooseParentAux cfg nodes1 cost np l best = some res →
      parentOK cfg nodes1 cost np n res := by
  intro l
  induction l with
  | nil =>
    intro best res _ hb hres
    simp only [chooseParentAux] at hres
    injection hres with h2
    subst h2
    exact hb
  | cons i rest ih =>
    intro best res hall hb hres
    simp only [chooseParentAux] at hres
    cases hc : isCollisionSeg cfg.obstacles cfg.grid cfg.thr cfg.scale
        (nodes1.getD i np) np with
    | none => rw [hc] at hres; cases hres
    | some b =>
      rw [hc] at hres
      cases b with
      | true => exact ih best res (fun j hj => hall j (by simp [hj])) hb hres
      | false =>
        refine ih _ res (fun j hj => hall j (by simp [hj])) ?_ hres
        split
        · exact ⟨hall i (by simp), rfl⟩
        · exact hb

theorem rewireOne_cases (cfg : Cfg) (np : Pt) (s1 s3 : PState)
    (hlen : s1.nodes.length = s1.parent.length)
    (hnp : s1.nodes.getD (s1.parent.length - 1) (0, 0) = np)
    {i : ℕ} (hi1 : i + 1 < s1.parent.length)
    (hro : rewireOne cfg s1 np i = some s3) :
    s3 = s1 ∨ (MicroStep cfg s1 s3 ∧ s3.parent.length = s1.parent.length ∧
      s3.nodes = s1.nodes) := by
  unfold rewireOne at hro
  by_cases hskip : s1.parent.getD (s1.parent.length - 1) none = some i
  · rw [if_pos hskip] at hro
    injection hro with h2
    exact Or.inl h2.symm
  · rw [if_neg hskip] at hro
    simp only at hro
    by_cases hlt : s1.cost.getD (s1.parent.length - 1) 0 +
        pathCost cfg.grid cfg.scale np (s1.nodes.getD i np) <
        s1.cost.getD i 0
    · rw [if_pos hlt] at hro
      cases hcol : isCollisionSeg cfg.obstacles cfg.grid cfg.thr cfg.scale np
          (s1.nodes.getD i np) with
      | none => rw [hcol] at hro; cases hro
      | some b =>
        rw [hcol] at hro
        cases b with
        | true =>
          injection hro with h2
          exact Or.inl h2.symm
        | false =>
          injection hro with h2
          have hid : s1.nodes.getD i np = s1.nodes.getD i (0, 0) :=
            getD_irrel _ _ _ _ (by omega)
          have hguard2 : s1.cost.getD (s1.parent.length - 1) 0 +
              pathCost cfg.grid cfg.scale
                (s1.nodes.getD (s1.parent.length - 1) (0, 0))
                (s1.nodes.getD i (0, 0)) < s1.cost.getD i 0 := by
            rw [hnp, ← hid]
            exact hlt
          have hs3 : s3 = rewireState cfg s1 i := by
            rw [← h2]
            unfold rewireState
            rw [hnp, ← hid]
          refine Or.inr ⟨?_, ?_, ?_⟩
          · rw [hs3]
            exact MicroStep.rewire s1 i (by omega) (by omega) hskip hguard2
          · rw [hs3]
            simp [rewireState]
          · rw [hs3]
            simp [rewireState]
    · rw [if_neg hlt] at hro
      injection hro with h2
      exact Or.inl h2.symm

theorem rewireAll_steps (cfg : Cfg) (np : Pt) :
    ∀ (l : List ℕ) (s1 s2 : PState),
      s1.nodes.length = s1.parent.length →
      s1.nodes.getD (s1.parent.length - 1) (0, 0) = np →
      (∀ i ∈ l, i + 1 < s1.parent.length) →
      rewireAll cfg np l s1 = some s2 →
      Relation.ReflTransGen (MicroStep cfg) s1 s2 ∧
        s2.parent.length = s1.parent.length ∧ s2.nodes = s1.nodes := by
  intro l
  induction l with
  | nil =>
    intro s1 s2 _ _ _ h
    simp only [rewireAll] at h
    injection h with h2
    subst h2
    exact ⟨Relation.ReflTransGen.refl, rfl, rfl⟩
  | cons i rest ih =>
    intro s1 s2 hlen hnp hall hrw
    simp only [rewireAll] at hrw
    cases hro : rewireOne cfg s1 np i with
    | none => rw [hro] at hrw; cases hrw
    | some s3 =>
      rw [hro] at hrw
      rcases rewireOne_cases cfg np s1 s3 hlen hnp (hall i (by simp)) hro with
        h1 | ⟨hstep, hplen, hnodes⟩
      · rw [h1] at hrw
        exact ih s1 s2 hlen hnp (fun j hj => hall j (by simp [hj])) hrw
      · rcases ih s3 s2 (by rw [hplen, hnodes]; exact hlen)
          (by rw [hplen, hnodes]; exact hnp)
          (fun j hj => by rw [hplen]; exact hall j (by simp [hj])) hrw with
          ⟨hst2, hplen2, hnodes2⟩
        exact ⟨Relation.ReflTransGen.head hstep hst2,
          by rw [hplen2, hplen], by rw [hnodes2, hnodes]⟩

theorem findCand_lt (cfg : Cfg) (s : PState) (hne : s.nodes ≠ []) :
    ∀ (cands : List (Pt × Pt)) {ni : ℕ} {np : Pt},
      findCand cfg s cands = some (ni, np) → ni < s.nodes.length := by
  intro cands
  induction cands with
  | nil => intro ni np h; cases h
  | cons c rest ih =>
    intro ni np h
    rcases c with ⟨r, np2⟩
    simp only [findCand] at h
    split at h
    · injection h with h2
      rw [Prod.mk.injEq] at h2
      rw [← h2.1]
      exact nearestIdx_lt s.nodes r hne
    · exact ih h

theorem iterBody_steps (cfg : Cfg) {s s2 : PState} {cands : List (Pt × Pt)}
    {r : Option (List Pt)}
    (hlen : s.nodes.length = s.parent.length) (hpos : 0 < s.parent.length)
    (h : iterBody cfg s cands = some (s2, r)) :
    Relation.ReflTransGen (MicroStep cfg) s s2 := by
  have hnodesne : s.nodes ≠ [] := by
    intro h0
    rw [h0] at hlen
    simp at hlen
    omega
  unfold iterBody at h
  split at h
  · cases h
  rename_i pr ni np hfc
  have hni : ni < s.parent.length := by
    rw [← hlen]
    exact findCand_lt cfg s hnodesne cands hfc
  split at h
  · cases h
  · -- collision on the nearest segment: state unchanged
    injection h with h2
    rw [Prod.mk.injEq] at h2
    rw [← h2.1]
  rename_i hcol
  split at h
  · cases h
  rename_i best hcp
  have hinitOK : parentOK cfg (s.nodes ++ [np]) s.cost np s.parent.length
      (ni, s.cost.getD ni 0 +
        pathCost cfg.grid cfg.scale (s.nodes.getD ni np) np) := by
    refine ⟨hni, ?_⟩
    simp only
    rw [List.getD_append _ _ np ni (by omega)]
  have hbestOK := chooseParentAux_spec cfg (s.nodes ++ [np]) s.cost np
    s.parent.length (nearNodes (s.nodes ++ [np]) np cfg.radius) _ best
    (fun i hi => by
      rw [← hlen]
      exact nearNodes_append_lt s.nodes np cfg.radius i hi)
    hinitOK hcp
  have hs1 : (PState.mk (s.nodes ++ [np]) (s.parent ++ [some best.1])
      (s.cost ++ [best.2])) = extendState cfg s np best.1 := by
    unfold extendState
    rw [hbestOK.2,
      List.getD_append _ _ np best.1 (by rw [hlen]; exact hbestOK.1)]
  split at h
  · cases h
  rename_i s3 hrw
  have hstep1 : MicroStep cfg s (extendState cfg s np best.1) :=
    MicroStep.extend s np best.1 hbestOK.1
  rcases rewireAll_steps cfg np (nearNodes (s.nodes ++ [np]) np cfg.radius)
      ⟨s.nodes ++ [np], s.parent ++ [some best.1], s.cost ++ [best.2]⟩ s3
      (by simp [hlen])
      (by
        simp only [List.length_append, List.length_cons, List.length_nil,
          Nat.add_sub_cancel]
        rw [← hlen]
        exact getD_concat_self _ _ _)
      (fun i hi => by
        simp only [List.length_append, List.length_cons, List.length_nil]
        have := nearNodes_append_lt s.nodes np cfg.radius i hi
        omega)
      hrw with ⟨hst13, hplen3, hnodes3⟩
  have hs13 : Relation.ReflTransGen (MicroStep cfg) s s3 := by
    refine Relation.ReflTransGen.head hstep1 ?_
    rw [← hs1]
    exact hst13
  have hplen3b : s3.parent.length = s.parent.length + 1 := by
    rw [hplen3]
    simp
  have hnodes3b : s3.nodes = s.nodes ++ [np] := hnodes3
  unfold goalCheck at h
  split at h
  · split at h
    · cases h
    · -- goal segment blocked: state s3 kept
      injection h with h2
      rw [Prod.mk.injEq] at h2
      rw [← h2.1]
      exact hs13
    · split at h
      · cases h
      · injection h with h2
        rw [Prod.mk.injEq] at h2
        rw [← h2.1]
        have hgoalext : goalExtState cfg s3 np =
            extendState cfg s3 cfg.goal (s3.parent.length - 1) := by
          unfold goalExtState extendState
          have he : s3.nodes.getD (s3.parent.length - 1) cfg.goal = np := by
            rw [hnodes3b, hplen3b]
            simp only [Nat.add_sub_cancel]
            rw [← hlen]
            exact getD_concat_self _ _ _
          rw [he]
        rw [hgoalext]
        exact Relation.ReflTransGen.tail hs13
          (MicroStep.extend s3 cfg.goal (s3.parent.length - 1) (by omega))
  · injection h with h2
    rw [Prod.mk.injEq] at h2
    rw [← h2.1]
    exact hs13

/-- A step of the planner at either granularity: an individual
parent-selection / rewiring mutation (`MicroStep`, covering every point
during an iteration) or a whole completed iteration of `find_path`. -/
def PlanStep (cfg : Cfg) (a b : PState) : Prop :=
  MicroStep cfg a b ∨ ∃ cands r, iterBody cfg a cands = some (b, r)

theorem planInv_planStep (cfg : Cfg) (hg : gridNonneg cfg.grid) {a b : PState}
    (h : PlanStep cfg a b) (inv : PlanInv a) : PlanInv b := by
  rcases h with h | ⟨cands, r, h⟩
  · exact planInv_micro cfg hg h inv
  · exact planInv_rtg cfg hg (iterBody_steps cfg inv.hnp inv.hpos h) inv

/-- C2: in every state reachable from the freshly constructed planner by
parent-selection, rewiring and whole-iteration steps — that is, at every
point during and after a `find_path` run — following parent pointers from
any node reaches the root (index 0, whose parent stays `None`) in
finitely many steps; no step ever creates a cycle. -/
theorem find_path_parent_acyclic (cfg : Cfg) (hg : gridNonneg cfg.grid)
    (s : PState)
    (hreach : Relation.ReflTransGen (PlanStep cfg) (initState cfg) s) :
    (∀ i, i < s.parent.length → ReachesRoot s i) ∧
      s.parent.getD 0 none = none := by
  have inv : PlanInv s := by
    induction hreach with
    | refl => exact planInv_init cfg
    | tail _ h2 ih => exact planInv_planStep cfg hg h2 ih
  exact ⟨fun i hi => inv.hacy i hi, inv.hroot⟩

/-- A concrete planner configuration for the witnesses: start and goal at
the origin, no obstacles, empty grid, unit parameters, no
simplification. -/
def cfg0 : Cfg := ⟨(0, 0), (0, 0), [], [], 1, 1, 1, 1, false⟩

theorem gridNonneg_cfg0 : gridNonneg cfg0.grid := by
  intro i j
  simp [cfg0, gridAt]

/-- Witness for `find_path_parent_acyclic` at the initial state of the
concrete configuration `cfg0`. -/
theorem find_path_parent_acyclic_witness :
    gridNonneg cfg0.grid ∧ ReachesRoot (initState cfg0) 0 ∧
      (initState cfg0).parent.getD 0 none = none := by
  have h := find_path_parent_acyclic cfg0 gridNonneg_cfg0 (initState cfg0)
    Relation.ReflTransGen.refl
  exact ⟨gridNonneg_cfg0, h.1 0 (by simp [initState]), h.2⟩

theorem walkParents_head (s : PState) :
    ∀ (f cur : ℕ) (l : List Pt), walkParents s f cur = some l →
      l ≠ [] ∧ l.head? = some (s.nodes.getD cur (0, 0)) := by
  intro f
  induction f with
  | zero => intro cur l h; cases h
  | succ m ih =>
    intro cur l h
    simp only [walkParents] at h
    split at h
    · injection h with h2
      subst h2
      exact ⟨by simp, by simp⟩
    · rename_i pidx hp
      cases hw : walkParents s m pidx with
      | none => rw [hw] at h; cases h
      | some l2 =>
        rw [hw] at h
        injection h with h2
        subst h2
        exact ⟨by simp, by simp⟩

theorem simplifyAux_some_last {α : Type} [DecidableEq α]
    (blocked : α → α → Option Bool) (path : List α) (lastPt : α) :
    ∀ (fuel : ℕ) (newPath : List α) (cur : α) (idx : ℕ) (out : List α),
      newPath ≠ [] → newPath.getLast? = some cur →
      simplifyAux blocked path lastPt fuel newPath cur idx = some out →
      out ≠ [] ∧ out.getLast? = some lastPt := by
  intro fuel
  induction fuel with
  | zero => intro newPath cur idx out _ _ h; cases h
  | succ f ih =>
    intro newPath cur idx out hne hlast h
    simp only [simplifyAux] at h
    split at h
    · rename_i hcl
      injection h with h2
      subst h2
      subst hcl
      exact ⟨hne, hlast⟩
    · split at h
      · cases h
      · exact ih newPath cur _ out hne hlast h
      · rename_i p k _
        exact ih (newPath ++ [p]) p _ out (by simp) (List.getLast?_concat _) h

theorem simplifyPath_some_last {α : Type} [DecidableEq α]
    (blocked : α → α → Option Bool) (fuel : ℕ) (path out : List α)
    (h : simplifyPath blocked fuel path = some out) :
    out ≠ [] ∧ out.getLast? = path.getLast? := by
  cases path with
  | nil => cases h
  | cons p0 rest =>
    have h2 := simplifyAux_some_last blocked (p0 :: rest)
      ((p0 :: rest).getLast (by simp)) fuel [p0] p0 1 out (by simp) (by simp) h
    refine ⟨h2.1, ?_⟩
    rw [h2.2, List.getLast?_eq_getLast (p0 :: rest) (by simp)]

theorem reconstructPath_some (cfg : Cfg) (s : PState) (gi : ℕ)
    (p : List Pt) (h : reconstructPath cfg s gi = some p) :
    p ≠ [] ∧ p.getLast? = some (s.nodes.getD gi (0, 0)) := by
  unfold reconstructPath at h
  split at h
  · cases h
  rename_i collected hw
  rcases walkParents_head s _ gi collected hw with ⟨hne, hhead⟩
  have hrev : collected.reverse.getLast? = some (s.nodes.getD gi (0, 0)) := by
    rw [List.getLast?_reverse]
    exact hhead
  split at h
  · rcases simplifyPath_some_last _ _ _ _ h with ⟨h1, h2⟩
    exact ⟨h1, by rw [h2, hrev]⟩
  · injection h with h2
    subst h2
    exact ⟨by simpa using hne, hrev⟩

theorem goalCheck_some_path (cfg : Cfg) {s s2 : PState} {np : Pt} {p : List Pt}
    (hlen : s.nodes.length = s.parent.length)
    (h : goalCheck cfg s np = some (s2, some p)) :
    p ≠ [] ∧ p.getLast? = some cfg.goal := by
  unfold goalCheck at h
  split at h
  · split at h
    · cases h
    · injection h with h2
      rw [Prod.mk.injEq] at h2
      cases h2.2
    · split at h
      · cases h
      · rename_i q hrc
        injection h with h2
        rw [Prod.mk.injEq] at h2
        have hqp : q = p := by
          injection h2.2 with h3
        subst hqp
        rcases reconstructPath_some cfg (goalExtState cfg s np) _ q hrc with
          ⟨h1, h2⟩
        refine ⟨h1, ?_⟩
        rw [h2]
        have : (goalExtState cfg s np).nodes.getD
            ((goalExtState cfg s np).parent.length - 1) (0, 0) = cfg.goal := by
          unfold goalExtState
          simp only [List.length_append, List.length_cons, List.length_nil,
            Nat.add_sub_cancel]
          rw [← hlen]
          exact getD_concat_self _ _ _
        rw [this]
  · injection h with h2
    rw [Prod.mk.injEq] at h2
    cases h2.2

theorem micro_lengths (cfg : Cfg) {a b : PState} (h : MicroStep cfg a b)
    (hl : a.nodes.length = a.parent.length) (hp : 0 < a.parent.length) :
    b.nodes.length = b.parent.length ∧ 0 < b.parent.length := by
  cases h with
  | extend np p hp2 => simp [extendState, hl]
  | rewire i hi hit hpar2 hguard => simp [rewireState, hl, hp]

theorem rtg_lengths (cfg : Cfg) {a b : PState}
    (h : Relation.ReflTransGen (MicroStep cfg) a b)
    (hl : a.nodes.length = a.parent.length) (hp : 0 < a.parent.length) :
    b.nodes.length = b.parent.length ∧ 0 < b.parent.length := by
  induction h with
  | refl => exact ⟨hl, hp⟩
  | tail _ h2 ih => exact micro_lengths cfg h2 ih.1 ih.2

theorem iterBody_some_path (cfg : Cfg) {s s2 : PState} {cands : List (Pt × Pt)}
    {p : List Pt}
    (hlen : s.nodes.length = s.parent.length) (_hpos : 0 < s.parent.length)
    (h : iterBody cfg s cands = some (s2, some p)) :
    p ≠ [] ∧ p.getLast? = some cfg.goal := by
  unfold iterBody at h
  split at h
  · cases h
  rename_i pr ni np hfc
  split at h
  · cases h
  · injection h with h2
    rw [Prod.mk.injEq] at h2
    cases h2.2
  split at h
  · cases h
  rename_i best hcp
  split at h
  · cases h
  rename_i s3 hrw
  have hl3 : s3.nodes.length = s3.parent.length := by
    rcases rewireAll_steps cfg np (nearNodes (s.nodes ++ [np]) np cfg.radius)
        ⟨s.nodes ++ [np], s.parent ++ [some best.1], s.cost ++ [best.2]⟩ s3
        (by simp [hlen])
        (by
          simp only [List.length_append, List.length_cons, List.length_nil,
            Nat.add_sub_cancel]
          rw [← hlen]
          exact getD_concat_self _ _ _)
        (fun i hi => by
          simp only [List.length_append, List.length_cons, List.length_nil]
          have := nearNodes_append_lt s.nodes np cfg.radius i hi
          omega)
        hrw with ⟨-, hplen3, hnodes3⟩
    rw [hplen3, hnodes3]
    simp [hlen]
  exact goalCheck_some_path cfg hl3 h

theorem findPathAux_some_path (cfg : Cfg) (oracle : ℕ → List (Pt × Pt)) :
    ∀ (b k : ℕ) (s : PState) (p : List Pt),
      s.nodes.length = s.parent.length → 0 < s.parent.length →
      findPathAux cfg oracle b k s = some (some p) →
      p ≠ [] ∧ p.getLast? = some cfg.goal := by
  intro b
  induction b with
  | zero =>
    intro k s p _ _ h
    injection h with h2
    cases h2
  | succ m ih =>
    intro k s p hl hp h
    simp only [findPathAux] at h
    split at h
    · cases h
    · rename_i s4 q hit
      injection h with h2
      injection h2 with h3
      subst h3
      exact iterBody_some_path cfg hl hp hit
    · rename_i s4 hit
      have hsteps := iterBody_steps cfg hl hp hit
      rcases rtg_lengths cfg hsteps hl hp with ⟨hl2, hp2⟩
      exact ih (k + 1) s4 p hl2 hp2 h

/-- C4: when `find_path` exhausts its iteration budget without connecting
to the goal, it returns the explicit no-result value (`some none` in the
model, Python `None`), never an exception; and any path it does return
was produced by the goal-connection branch and ends at the goal — no
partial path is ever returned. -/
theorem find_path_failure_explicit (cfg : Cfg) (oracle : ℕ → List (Pt × Pt))
    (b k : ℕ) (s : PState) (hex : Exhausts cfg oracle b k s) :
    findPathAux cfg oracle b k s = some none ∧
      ∀ (bb : ℕ) (p : List Pt), findPath cfg oracle bb = some (some p) →
        p ≠ [] ∧ p.getLast? = some cfg.goal := by
  constructor
  · induction b generalizing k s with
    | zero => rfl
    | succ m ih =>
      rcases hex with ⟨s2, hit, hex2⟩
      simp only [findPathAux, hit]
      exact ih (k + 1) s2 hex2
  · intro bb p h
    exact findPathAux_some_path cfg oracle bb 0 (initState cfg) p
      (by simp [initState]) (by simp [initState]) h

/-- Witness for `find_path_failure_explicit`: a zero-budget run (trivially
exhausted) on the concrete configuration returns the explicit `None`. -/
theorem find_path_failure_explicit_witness :
    Exhausts cfg0 (fun _ => []) 0 0 (initState cfg0) ∧
      findPathAux cfg0 (fun _ => []) 0 0 (initState cfg0) = some none := by
  have h := find_path_failure_explicit cfg0 (fun _ => []) 0 0 (initState cfg0)
    trivial
  exact ⟨trivial, h.1⟩

/-- C6: after a node `new_point` is added, if its distance to the goal is
within `goal_tolerance` (which is `step_size / 2`) and the segment to the
goal is unblocked, the goal is appended as a final node parented at the
newest node and the reconstructed path is returned; otherwise (out of
tolerance, or a blocked segment) the state is unchanged and the iteration
continues. -/
theorem goal_connection (cfg : Cfg) (s : PState) (np : Pt) :
    (ltNorm (sqDist np cfg.goal) (goalTol cfg) = true →
      isCollisionSeg cfg.obstacles cfg.grid cfg.thr cfg.scale np cfg.goal =
        some false →
      goalCheck cfg s np =
        (reconstructPath cfg (goalExtState cfg s np)
          ((goalExtState cfg s np).parent.length - 1)).map
            (fun p => (goalExtState cfg s np, some p)) ∧
      (goalExtState cfg s np).nodes.getLast? = some cfg.goal ∧
      (goalExtState cfg s np).parent.getLast? =
        some (some (s.parent.length - 1))) ∧
    (ltNorm (sqDist np cfg.goal) (goalTol cfg) = false →
      goalCheck cfg s np = some (s, none)) ∧
    (isCollisionSeg cfg.obstacles cfg.grid cfg.thr cfg.scale np cfg.goal =
        some true →
      goalCheck cfg s np = some (s, none)) ∧
    goalTol cfg = cfg.stepSize / 2 := by
  refine ⟨?_, ?_, ?_, rfl⟩
  · intro h1 h2
    refine ⟨?_, ?_, ?_⟩
    · unfold goalCheck
      rw [if_pos h1, h2]
      cases hrc : reconstructPath cfg (goalExtState cfg s np)
          ((goalExtState cfg s np).parent.length - 1) with
      | none => simp
      | some p => simp
    · unfold goalExtState
      simp
    · unfold goalExtState
      simp
  · intro h1
    unfold goalCheck
    rw [if_neg (by simp [h1])]
  · intro h2
    unfold goalCheck
    by_cases h1 : ltNorm (sqDist np cfg.goal) (goalTol cfg) = true
    · rw [if_pos h1, h2]
    · rw [if_neg h1]

/-- Witness for `goal_connection`: in the concrete configuration the
candidate at the origin is within tolerance of the goal with an unblocked
segment, and the appended final node is the goal. -/
theorem goal_connection_witness :
    ltNorm (sqDist ((0 : ℚ), (0 : ℚ)) cfg0.goal) (goalTol cfg0) = true ∧
      isCollisionSeg cfg0.obstacles cfg0.grid cfg0.thr cfg0.scale
        ((0 : ℚ), (0 : ℚ)) cfg0.goal = some false ∧
      (goalExtState cfg0 (initState cfg0) ((0 : ℚ), (0 : ℚ))).nodes.getLast? =
        some cfg0.goal := by
  have h1 : ltNorm (sqDist ((0 : ℚ), (0 : ℚ)) cfg0.goal) (goalTol cfg0) = true := by
    simp only [ltNorm, sqDist, goalTol, cfg0, Bool.and_eq_true, decide_eq_true_eq]
    norm_num
  have h2 : isCollisionSeg cfg0.obstacles cfg0.grid cfg0.thr cfg0.scale
      ((0 : ℚ), (0 : ℚ)) cfg0.goal = some false := by
    have ht : toCell cfg0.scale ((0 : ℚ), (0 : ℚ)) = (0, 0) := by
      simp [toCell, ratTrunc, cfg0]
    simp only [isCollisionSeg, obstacleSegHit, cfg0, List.any_nil,
      Bool.false_eq_true, if_false, ht, bresenham_self, gridScan]
  exact ⟨h1, h2, ((goal_connection cfg0 (initState cfg0)
    ((0 : ℚ), (0 : ℚ))).1 h1 h2).2.1⟩
